import Mathlib

/-!
Verification of the version-directory resolution and artifact-acquisition
subsystem of the zed-csharp extension (src/binary_manager.rs, src/csharp.rs,
src/version_config.rs), as a shallow embedding in Lean.

Rust strings are modelled as Lean `String`; Rust's byte-wise lexicographic
`<`/`>` on strings coincides with Lean's `String` order on the ASCII data
involved (UTF-8 byte order and codepoint order agree in general).
Filesystem paths are modelled as component lists (`List String`), mirroring
`std::path::Path` component semantics; the filesystem itself is a list of
(resolved path, is-directory) pairs.  I/O failures are injected through
explicit oracles so that error-handling control flow can be analysed.
-/

/-- Strict order on characters by codepoint.  Rust compares `str` values
byte-wise on their UTF-8 encodings; UTF-8 byte order coincides with
codepoint order, so char-wise codepoint comparison is the same relation. -/
def char_lt (a b : Char) : Bool := Nat.blt a.toNat b.toNat

/-- Lexicographic order on character lists (Rust `str` `<`). -/
def lex_lt : List Char → List Char → Bool
  | [], [] => false
  | [], _ :: _ => true
  | _ :: _, [] => false
  | a :: as, b :: bs =>
    if char_lt a b then true
    else if char_lt b a then false
    else lex_lt as bs

/-- Rust `<` on strings: plain lexicographic comparison.  `a > b` in the
source is `str_lt b a`. -/
def str_lt (s t : String) : Bool := lex_lt s.data t.data

/-- Rust `str::starts_with` (substring pattern): byte/char-wise prefix test. -/
def starts_with (s pat : String) : Bool :=
  pat.data.isPrefixOf s.data

/-- One step of Rust `str::contains(substring)`: does `pat` occur in `l`? -/
def infix_aux (pat : List Char) : List Char → Bool
  | [] => pat.isEmpty
  | c :: t => pat.isPrefixOf (c :: t) || infix_aux pat t

/-- Rust `str::contains` with a substring pattern. -/
def contains_sub (s pat : String) : Bool :=
  infix_aux pat.data s.data

/-- Fuel-indexed core of Rust `str::trim_start_matches` with a string pattern:
repeatedly strips `pat` from the front.  Each successful strip removes at
least one character (the `pat ≠ []` guard), so fuel `s.length` makes this
equal to the unbounded loop. -/
def trim_aux (pat : List Char) : Nat → List Char → List Char
  | 0, s => s
  | fuel + 1, s =>
    if pat ≠ [] ∧ pat.isPrefixOf s then trim_aux pat fuel (s.drop pat.length)
    else s

/-- Rust `str::trim_start_matches` with a string pattern (removes every
leading occurrence of `pat`). -/
def trim_start_matches (s pat : String) : String :=
  ⟨trim_aux pat.data s.data.length s.data⟩

/-- Rust `str::trim_start_matches` with a char pattern (removes every leading
occurrence of the character), used for stripping the leading `v` of a
release tag. -/
def trim_start_char (s : String) (c : Char) : String :=
  ⟨s.data.dropWhile (fun d => d = c)⟩

/-!
## Effective version selection
`BinaryManager::get_version_dir`, src/binary_manager.rs lines 270-288:

    let version = if let Some(gh_ver) = github_version {
        if latest_local_version.as_ref().map_or(true, |local| gh_ver > *local)
        { gh_ver } else { latest_local_version.unwrap() }
    } else {
        latest_local_version.ok_or_else(|| format!(
            "No {} version found locally and cannot check GitHub for updates",
            config.prefix))?
    };
-/

/-- Effective version selection from `BinaryManager::get_version_dir`
(src/binary_manager.rs:270-288).  `github_version` is the (already
`v`-stripped) remote version if the release query succeeded. -/
def select_version (github_version latest_local_version : Option String)
    (pfx : String) : Except String String :=
  match github_version with
  | some gh_ver =>
    match latest_local_version with
    | none => .ok gh_ver
    | some loc => if str_lt loc gh_ver then .ok gh_ver else .ok loc
  | none =>
    match latest_local_version with
    | some loc => .ok loc
    | none =>
      .error ("No " ++ pfx ++ " version found locally and cannot check GitHub for updates")

/-!
## DAP request kind
`CsharpExtension::dap_request_kind`, src/csharp.rs lines 752-773.
The JSON configuration is modelled as an association list of key/value
pairs; `serde_json::Value::get` is first-match lookup and `as_str` succeeds
exactly on string values.
-/

/-- Model of `serde_json::Value`, restricted to the structure
`dap_request_kind` inspects (only stringness of a field matters). -/
inductive JsonVal where
  | str (s : String)
  | num (n : Int)
  | boolean (b : Bool)
  | null
  deriving DecidableEq

/-- Model of `serde_json::Value::as_str`: some exactly on string values. -/
def JsonVal.as_str : JsonVal → Option String
  | .str s => some s
  | _ => none

/-- Model of `serde_json::Value::get(key)` on an object, modelled as association-list
lookup. -/
def json_get (config : List (String × JsonVal)) (key : String) : Option JsonVal :=
  match config.find? (fun kv => kv.1 = key) with
  | some kv => some kv.2
  | none => none

/-- Model of `StartDebuggingRequestArgumentsRequest`. -/
inductive RequestKind where
  | launch
  | attach
  deriving DecidableEq

/-- Model of `CsharpExtension::dap_request_kind` (src/csharp.rs:752-773). -/
def dap_request_kind (adapter_name : String) (config : List (String × JsonVal)) :
    Except String RequestKind :=
  if adapter_name ≠ "coreclr" then
    .error ("Unknown adapter: " ++ adapter_name)
  else
    match (json_get config "request").bind JsonVal.as_str with
    | some r =>
      if r = "launch" then .ok .launch
      else if r = "attach" then .ok .attach
      else .error ("Invalid 'request' value: '" ++ r ++ "'. Expected 'launch' or 'attach'")
    | none =>
      .error "Debug configuration missing required 'request' field. Must be 'launch' or 'attach'"

/-!
## Order lemmas for the lexicographic comparison
`lex_lt` is related to Mathlib's `List.Lex` over the codepoint order on
characters, from which transitivity, irreflexivity and trichotomy follow.
-/

/-- The codepoint strict order on characters, as an explicit relation. -/
def charLT : Char → Char → Prop := fun a b => a.toNat < b.toNat

instance : IsStrictTotalOrder Char charLT where
  trichotomous := by
    intro a b
    rcases Nat.lt_trichotomy a.toNat b.toNat with h | h | h
    · exact Or.inl h
    · exact Or.inr (Or.inl (Char.ext (UInt32.eq_of_toBitVec_eq (BitVec.eq_of_toNat_eq h))))
    · exact Or.inr (Or.inr h)
  irrefl := by intro a; exact Nat.lt_irrefl _
  trans := by intro a b c h1 h2; exact Nat.lt_trans h1 h2


/-!
## Local-version scan
`BinaryManager::get_version_dir`, src/binary_manager.rs lines 230-250, and
the near-duplicate `CsharpExtension::get_vscode_version_dir`,
src/csharp.rs lines 254-275.  A directory listing is modelled as a list of
entries carrying the data the scan inspects: the file name and whether
`fs::metadata(&name)` reports a directory.
-/

/-- One entry of `fs::read_dir(".")`: its file name and whether it is a
directory. -/
structure DirEntry where
  name : String
  is_dir : Bool
  deriving DecidableEq

/-- The running-maximum update inside the scan loop
(src/binary_manager.rs:242-247):
`if latest_local_version.as_ref().map_or(true, |latest| version > latest)
 { latest_local_version = Some(version.to_string()) }`. -/
def max_step (latest : Option String) (version : String) : Option String :=
  if (match latest with | none => true | some l => str_lt l version) then some version
  else latest

/-- One iteration of the scan loop of `BinaryManager::get_version_dir`
(src/binary_manager.rs:235-250): the entry is considered when
`name.starts_with(&config.prefix)` (bare prefix, no hyphen appended) and it
is a directory; the candidate version is
`name.trim_start_matches(&format!("{}-", config.prefix))`. -/
def scan_step (pfx : String) (latest : Option String) (e : DirEntry) : Option String :=
  if starts_with e.name pfx && e.is_dir then
    max_step latest (trim_start_matches e.name (pfx ++ "-"))
  else latest

/-- The local-version scan of `BinaryManager::get_version_dir`
(src/binary_manager.rs:230-250): fold of `scan_step` over the working
directory's entries, starting from `latest_local_version = None`. -/
def scan_local_versions (pfx : String) (entries : List DirEntry) : Option String :=
  entries.foldl (scan_step pfx) none

/-- The candidate multiset the scan draws from: the version suffixes of the
directory entries whose name starts with the bare prefix. -/
def scan_candidates (pfx : String) (entries : List DirEntry) : List String :=
  (entries.filter (fun e => starts_with e.name pfx && e.is_dir)).map
    (fun e => trim_start_matches e.name (pfx ++ "-"))

/-- One iteration of the scan loop of
`CsharpExtension::get_vscode_version_dir` (src/csharp.rs:258-275).  There
the prefix literal is `"vscode-csharp-"` — it includes the hyphen — and the
same string is used for both `starts_with` and `trim_start_matches`. -/
def scan_step_vscode (latest : Option String) (e : DirEntry) : Option String :=
  if starts_with e.name "vscode-csharp-" && e.is_dir then
    max_step latest (trim_start_matches e.name "vscode-csharp-")
  else latest

/-- The local-version scan of `CsharpExtension::get_vscode_version_dir`
(src/csharp.rs:254-275). -/
def scan_local_versions_vscode (entries : List DirEntry) : Option String :=
  entries.foldl scan_step_vscode none

/-!
## Filesystem and archive model
`BinaryManager::extract_zip` and `BinaryManager::download_with_retry`
(src/binary_manager.rs:50-208).  A filesystem path is a component list; the
filesystem is the list of (resolved path, is-directory) pairs that exist.
The extension runs single-threaded on a unix-like (wasm) target, so
`std::path::Path` semantics are modelled with `/` separators: splitting at
`/`, with empty and `.` pieces neutral.  I/O failures are injected by an
oracle keyed on the syntactic path handed to the OS call.
-/

/-- A resolved filesystem path, as its component list. -/
abbrev FsPath := List String

/-- The filesystem: the (resolved path, is-directory) pairs that exist. -/
abbrev Fs := List (FsPath × Bool)

/-- Split a character list at `/` (the component iteration of
`std::path::Path`). -/
def split_aux : List Char → List Char → List (List Char)
  | cur, [] => [cur.reverse]
  | cur, c :: t =>
    if c = '/' then cur.reverse :: split_aux [] t else split_aux (c :: cur) t

/-- The raw `/`-separated pieces of a stored entry name. -/
def raw_comps (s : String) : List String :=
  (split_aux [] s.data).map (fun l => String.mk l)

/-- The `Path` components of a stored entry name: raw pieces with empty and
`.` pieces dropped (they are neutral in `Path::components`). -/
def path_comps (s : String) : List String :=
  (raw_comps s).filter (fun c => ¬ (c = "" ∨ c = "."))

/-- Depth tracking of the zip crate's `enclosed_name`: fold over the raw
components; `..` pops (`checked_sub`, `none` on underflow), a normal
component pushes, `.` and empty pieces are neutral. -/
def depth_ok : List String → Nat → Option Nat
  | [], d => some d
  | c :: rest, d =>
    if c = "" ∨ c = "." then depth_ok rest d
    else if c = ".." then
      match d with
      | 0 => none
      | d' + 1 => depth_ok rest d'
    else depth_ok rest (d + 1)

/-- Model of the zip crate's `ZipFile::enclosed_name`: `none` for names
containing NUL, absolute names (a root component), or names whose `..`
components would escape (depth underflow); otherwise the stored name itself
(the crate returns `Path::new(&self.file_name)` unchanged).  Windows prefix
components do not arise on the unix-like target modelled here. -/
def enclosed_name (s : String) : Option String :=
  if s.data.contains (Char.ofNat 0) then none
  else if starts_with s "/" then none
  else
    match depth_ok (raw_comps s) 0 with
    | none => none
    | some _ => some s

/-- The zip crate's `ZipFile::is_dir`: the stored name ends with a
separator. -/
def entry_is_dir (name : String) : Bool :=
  match name.data.getLast? with
  | some c => c = '/'
  | none => false

/-- Resolve raw components against an already-resolved base: `.` and empty
pieces are skipped, `..` pops (`none` below the root), a normal component
is appended. -/
def resolve_comps (acc : FsPath) : List String → Option FsPath
  | [] => some acc
  | c :: rest =>
    if c = "" ∨ c = "." then resolve_comps acc rest
    else if c = ".." then
      if acc = [] then none else resolve_comps acc.dropLast rest
    else resolve_comps (acc ++ [c]) rest

/-- Injection of I/O failures: the OS error message (if any) each call gets,
keyed on the syntactic path passed to it. -/
structure FsOracle where
  create_dir_err : List String → Option String
  create_file_err : List String → Option String
  copy_err : List String → Option String

/-- The directories `fs::create_dir_all(p)` materializes: the resolved form
of every syntactic prefix of `p` (each ancestor is created in turn). -/
def mkdir_targets (p : List String) : List FsPath :=
  (List.range (p.length + 1)).filterMap (fun i => resolve_comps [] (p.take i))

/-- Record a directory if it is not already present. -/
def add_dir (fs : Fs) (p : FsPath) : Fs :=
  if (p, true) ∈ fs then fs else fs ++ [(p, true)]

/-- Record a list of directories. -/
def add_dirs (fs : Fs) (l : List FsPath) : Fs := l.foldl add_dir fs

/-- Model of `fs::create_dir_all(p)`: consult the oracle, then materialize every
ancestor of `p` idempotently.  Returns the new filesystem and the raw OS
error, if any (the caller formats the message). -/
def create_dir_all (fsO : FsOracle) (fs : Fs) (p : List String) : Fs × Option String :=
  match fsO.create_dir_err p with
  | some e => (fs, some e)
  | none => (add_dirs fs (mkdir_targets p), none)

/-- Model of `fs::File::create(p)`: fails per the oracle, or when `p` does not
resolve, or when the resolved path is an existing directory; otherwise
records (or truncates) the file. -/
def file_create (fsO : FsOracle) (fs : Fs) (p : List String) : Fs × Option String :=
  match fsO.create_file_err p with
  | some e => (fs, some e)
  | none =>
    match resolve_comps [] p with
    | none => (fs, some "No such file or directory (os error 2)")
    | some rp =>
      if (rp, true) ∈ fs then (fs, some "Is a directory (os error 21)")
      else if (rp, false) ∈ fs then (fs, none)
      else (fs ++ [(rp, false)], none)

/-- Model of `fs::remove_dir_all(dest)`: drop `dest` and everything below it (its own
failure is ignored by every caller in the source, `.ok()`). -/
def remove_dir_all (fs : Fs) (dest : List String) : Fs :=
  match resolve_comps [] dest with
  | none => fs
  | some rd => fs.filter (fun q => ¬ (rd <+: q.1))

/-- Display form of a component path, for error messages. -/
def join_path (p : List String) : String := String.intercalate "/" p

/-- The file-entry tail of the per-entry work in
`BinaryManager::extract_zip` (src/binary_manager.rs:115-119):
`fs::File::create(&outpath)` then `std::io::copy`. -/
def file_and_copy (fsO : FsOracle) (fs : Fs) (outp : List String) (nm : String) :
    Fs × Option String :=
  match file_create fsO fs outp with
  | (fs', some e) => (fs', some ("failed to create file " ++ nm ++ ": " ++ e))
  | (fs', none) =>
    match fsO.copy_err outp with
    | some e => (fs', some ("failed to copy file " ++ nm ++ ": " ++ e))
    | none => (fs', none)

/-- Processing of one archive entry in `BinaryManager::extract_zip`
(src/binary_manager.rs:71-127): entries rejected by `enclosed_name` are
skipped with a warning (`continue`); empty resolved names are skipped;
directory entries are created with `create_dir_all`; file entries create
the parent directory (`outpath.parent()`, the path without its final
component), then the file, then copy the bytes.  `some message` aborts the
extraction.  (The `by_index` read error of line 72 is not modelled: entry
metadata is given directly.) -/
def process_entry (fsO : FsOracle) (dest : List String) (fs : Fs) (name : String) :
    Fs × Option String :=
  match enclosed_name name with
  | none => (fs, none)
  | some nm =>
    if nm = "" then (fs, none)
    else
      let outp := dest ++ path_comps nm
      if entry_is_dir nm then
        match create_dir_all fsO fs outp with
        | (fs', some e) => (fs', some ("failed to create directory " ++ nm ++ ": " ++ e))
        | (fs', none) => (fs', none)
      else
        match outp with
        | [] => file_and_copy fsO fs outp nm
        | _ :: _ =>
          match create_dir_all fsO fs outp.dropLast with
          | (fs', some e) =>
            (fs', some ("failed to create parent directory for " ++ nm ++ ": " ++ e))
          | (fs', none) => file_and_copy fsO fs' outp nm

/-- The entry loop of `BinaryManager::extract_zip`
(src/binary_manager.rs:71-127). -/
def extract_entries (fsO : FsOracle) (dest : List String) :
    List String → Fs → Fs × Option String
  | [], fs => (fs, none)
  | e :: rest, fs =>
    match process_entry fsO dest fs e with
    | (fs', none) => extract_entries fsO dest rest fs'
    | (fs', some err) => (fs', some err)

/-- Model of `BinaryManager::extract_zip` (src/binary_manager.rs:50-131).  `zip_data`
is the parse of the downloaded buffer: `none` when `ZipArchive::new` fails,
otherwise the list of stored entry names (the only entry data the
extraction inspects, the trailing-slash directory marker included).
Returns the new filesystem and `some message` on failure. -/
def extract_zip (fsO : FsOracle) (zip_data : Option (List String))
    (dest : List String) (fs : Fs) : Fs × Option String :=
  match create_dir_all fsO fs dest with
  | (fs', some e) => (fs', some ("failed to create destination directory: " ++ e))
  | (fs', none) =>
    match zip_data with
    | none => (fs', some "failed to open zip archive: invalid Zip archive")
    | some entries => extract_entries fsO dest entries fs'

/-- A path of only real components: no empty, `.` or `..` pieces.  Holds for
every version directory the resolver constructs (`{prefix}-{version}`). -/
def no_dots (p : List String) : Prop :=
  ∀ c ∈ p, ¬ (c = "" ∨ c = "." ∨ c = "..")

instance (p : List String) : Decidable (no_dots p) := by
  unfold no_dots
  infer_instance

/-!
## Retry loop
`BinaryManager::download_with_retry` (src/binary_manager.rs:133-208).
-/

/-- The retryability classification of src/binary_manager.rs:177-181. -/
def is_retryable (e : String) : Bool :=
  contains_sub e "unexpected end of file" || contains_sub e "extraction" ||
  contains_sub e "download" || contains_sub e "incomplete write" ||
  contains_sub e "failed"

/-- The `while attempt < max_retries` loop of
`BinaryManager::download_with_retry` (src/binary_manager.rs:133-208), as a
fuel-indexed recursion with `fuel = max_retries - attempt`.  `download k`
is the outcome of `download_file_http` on attempt `k` (an `Err` message or
the parsed archive), `fsOs k` the I/O weather of attempt `k`.  Returns the
filesystem, the result, and the number of download attempts performed.
The per-retry cleanup `fs::remove_dir_all(destination).ok()` ignores its
own error; the recreation `fs::create_dir_all(destination)` propagates
failure via `?` (src/binary_manager.rs:188-191). -/
def retry_loop (download : Nat → Except String (Option (List String)))
    (fsOs : Nat → FsOracle) (dest : List String) (max_retries : Nat) :
    Nat → Nat → Fs → Fs × Except String Unit × Nat
  | 0, _, fs => (fs, .error "download retries exhausted", 0)
  | fuel + 1, attempt, fs =>
    match download (attempt + 1) with
    | .error e =>
      if attempt + 1 < max_retries then
        match retry_loop download fsOs dest max_retries fuel (attempt + 1) fs with
        | (fs', r, n) => (fs', r, n + 1)
      else (fs, .error e, 1)
    | .ok zip_data =>
      match extract_zip (fsOs (attempt + 1)) zip_data dest fs with
      | (fs', none) => (fs', .ok (), 1)
      | (fs', some e) =>
        if is_retryable e = true ∧ attempt + 1 < max_retries then
          match create_dir_all (fsOs (attempt + 1)) (remove_dir_all fs' dest) dest with
          | (fs'', some ce) =>
            (fs'', .error ("failed to create directory " ++ join_path dest ++ ": " ++ ce), 1)
          | (fs'', none) =>
            match retry_loop download fsOs dest max_retries fuel (attempt + 1) fs'' with
            | (fs3, r, n) => (fs3, r, n + 1)
        else (fs', .error e, 1)

/-- Model of `BinaryManager::download_with_retry(url, destination, max_retries)`
(src/binary_manager.rs:133-208); the URL is folded into the `download`
oracle. -/
def download_with_retry (download : Nat → Except String (Option (List String)))
    (fsOs : Nat → FsOracle) (dest : List String) (max_retries : Nat) (fs : Fs) :
    Fs × Except String Unit × Nat :=
  retry_loop download fsOs dest max_retries max_retries 0 fs

/-!
## Binary polling
`BinaryManager::get_version_dir`, src/binary_manager.rs lines 347-375.
-/

/-- The `while !has_content && poll_count < max_polls` loop of
src/binary_manager.rs:354-363, fuel-indexed with
`fuel = max_polls - poll_count`.  `exists_at k` is the outcome of the k-th
`fs::metadata(&binary_path)` file check (the check before the loop is
number 0, the check of loop iteration `poll_count` is number
`poll_count`). -/
def poll_aux (exists_at : Nat → Bool) : Nat → Nat → Bool → Bool × Nat
  | 0, pc, has => (has, pc)
  | fuel + 1, pc, has =>
    if has then (has, pc)
    else poll_aux exists_at fuel (pc + 1) (exists_at (pc + 1))

/-- The whole poll (src/binary_manager.rs:350-363): initial check, then up
to `max_polls` loop iterations; returns `has_content` and `poll_count`. -/
def poll_for_binary (exists_at : Nat → Bool) (max_polls : Nat) : Bool × Nat :=
  poll_aux exists_at max_polls 0 (exists_at 0)

/-- The post-extraction poll-and-fail step of
`BinaryManager::get_version_dir` (src/binary_manager.rs:347-375): if the
binary never shows up within 50 polls, the version directory is removed
recursively and resolution fails; otherwise it proceeds. -/
def binary_poll_phase (exists_at : Nat → Bool) (pfx : String)
    (version_dir : List String) (fs : Fs) : Fs × Except String Unit :=
  match poll_for_binary exists_at 50 with
  | (true, _) => (fs, .ok ())
  | (false, _) =>
    (remove_dir_all fs version_dir,
     .error ("failed to download " ++ pfx ++ ": binary not found after extraction"))

/-!
## The resolver pipeline
`BinaryManager::get_version_dir` (src/binary_manager.rs:211-451), for the
cache/idempotence analysis.  The environment is a snapshot of the answers
every external interaction gives during one call; the effect counters
record the externally observable calls made.
-/

/-- Oracle answers for one `get_version_dir` call.  `github` is the raw
`release.version` when `zed::latest_github_release` succeeds (`none` on
failure); `download_result` abstracts the outcome of the
`download_with_retry` call, whose filesystem behavior is analysed
separately; `absolutize` is `path_utils::normalize_path_to_absolute`. -/
structure Env where
  is_dir : String → Bool
  is_file : String → Bool
  entries : List DirEntry
  github : Option String
  platform_string : Except String String
  download_url : String → String → Except String String
  binary_path : String → String
  download_result : Except String Unit
  binary_appears : Nat → Bool
  absolutize : String → String

/-- Counts of the externally observable calls of one `get_version_dir`
call: `zed::latest_github_release` queries, `fs::read_dir(".")` scans, and
`download_with_retry` invocations. -/
structure Effects where
  github_queries : Nat
  dir_scans : Nat
  downloads : Nat
  deriving DecidableEq

/-- No external calls. -/
def zero_effects : Effects := ⟨0, 0, 0⟩

/-- The non-cached tail of `BinaryManager::get_version_dir`
(src/binary_manager.rs:230-451), portable behavior (the
`#[cfg(windows)]` PE-header block of lines 377-421 is compiled out on the
unix-like target modelled here).  Returns the result, the value stored into
`cached_version_dir` on success, and the effect counters.  The
existing-directory validation of lines 293-320 either returns the validated
directory or falls through to installation (after a best-effort
`remove_dir_all`); the `fs::create_dir_all(&version_dir)` of line 335 and
the read-dir errors of lines 231 and 429 are not failure-injected here —
they concern the filesystem model analysed with the engine. -/
def get_version_dir_uncached (env : Env) (pfx : String) :
    Except String String × Option String × Effects :=
  let latest_local := scan_local_versions pfx env.entries
  let github_version := env.github.map (fun v => trim_start_char v 'v')
  match select_version github_version latest_local pfx with
  | .error e => (.error e, none, ⟨1, 1, 0⟩)
  | .ok version =>
    let version_dir := pfx ++ "-" ++ version
    if env.is_dir version_dir && env.is_file (env.binary_path version_dir) then
      let abs := env.absolutize version_dir
      (.ok abs, some abs, ⟨1, 1, 0⟩)
    else
      match env.platform_string with
      | .error e =>
        (.error ("get_version_dir[" ++ pfx ++ "]: failed to determine platform: " ++ e),
         none, ⟨1, 1, 0⟩)
      | .ok platform_str =>
        match env.download_url version platform_str with
        | .error e => (.error e, none, ⟨1, 1, 0⟩)
        | .ok _url =>
          match env.download_result with
          | .error e => (.error e, none, ⟨1, 1, 1⟩)
          | .ok _ =>
            match poll_for_binary env.binary_appears 50 with
            | (true, _) =>
              let abs := env.absolutize version_dir
              (.ok abs, some abs, ⟨1, 2, 1⟩)
            | (false, _) =>
              (.error ("failed to download " ++ pfx ++ ": binary not found after extraction"),
               none, ⟨1, 1, 1⟩)

/-- Model of `BinaryManager::get_version_dir` (src/binary_manager.rs:211-451): the
cached-directory fast path of lines 219-228, then the non-cached tail.
`cached` is the `cached_version_dir` field on entry; the middle component
of the result is the field on exit (it is only assigned on success,
src/binary_manager.rs:310 and 449). -/
def get_version_dir (env : Env) (cached : Option String) (pfx : String) :
    Except String String × Option String × Effects :=
  match cached with
  | some cached_dir =>
    if env.is_dir cached_dir then (.ok cached_dir, some cached_dir, zero_effects)
    else
      match get_version_dir_uncached env pfx with
      | (.ok p, c, eff) => (.ok p, c, eff)
      | (.error e, _, eff) => (.error e, cached, eff)
  | none =>
    match get_version_dir_uncached env pfx with
    | (.ok p, c, eff) => (.ok p, c, eff)
    | (.error e, _, eff) => (.error e, none, eff)

/-!
# Theorems
-/

theorem char_lt_iff {a b : Char} : char_lt a b = true ↔ charLT a b := by
  rw [char_lt, Nat.blt_eq]; exact Iff.rfl

theorem char_eq_of_not_lt {a b : Char} (h1 : char_lt a b = false) (h2 : char_lt b a = false) :
    a = b := by
  have h1' : ¬ charLT a b := fun h => by simp [char_lt_iff.mpr h] at h1
  have h2' : ¬ charLT b a := fun h => by simp [char_lt_iff.mpr h] at h2
  rcases trichotomous_of charLT a b with h | h | h
  · exact absurd h h1'
  · exact h
  · exact absurd h h2'

theorem lex_lt_iff : ∀ a b : List Char, lex_lt a b = true ↔ List.Lex charLT a b := by
  intro a
  induction a with
  | nil =>
    intro b
    cases b with
    | nil => simp [lex_lt]
    | cons y ys => simp [lex_lt]; exact List.Lex.nil
  | cons x xs ih =>
    intro b
    cases b with
    | nil =>
      simp only [lex_lt, Bool.false_eq_true, false_iff]
      exact List.Lex.not_nil_right _ _
    | cons y ys =>
      simp only [lex_lt]
      by_cases h1 : char_lt x y = true
      · simp only [h1, if_true, true_iff]
        exact List.Lex.rel (char_lt_iff.mp h1)
      · rw [Bool.not_eq_true] at h1
        by_cases h2 : char_lt y x = true
        · simp only [h1, h2, Bool.false_eq_true, if_false, if_true, false_iff]
          intro hlex
          cases hlex with
          | rel h => exact absurd (char_lt_iff.mpr h) (by simp [h1])
          | cons h => exact absurd (char_lt_iff.mp h2) (irrefl_of charLT _)
        · rw [Bool.not_eq_true] at h2
          have hxy : x = y := char_eq_of_not_lt h1 h2
          subst hxy
          simp only [h1, h2, Bool.false_eq_true, if_false]
          rw [ih ys]
          constructor
          · intro h; exact List.Lex.cons h
          · intro h
            cases h with
            | rel h => exact absurd h (irrefl_of charLT _)
            | cons h => exact h

theorem lex_not_lt_iff (a b : List Char) : lex_lt a b = false ↔ ¬ List.Lex charLT a b := by
  rw [← lex_lt_iff]
  cases h : lex_lt a b <;> simp

theorem str_lt_trans {a b c : String} (h1 : str_lt a b = true) (h2 : str_lt b c = true) :
    str_lt a c = true := by
  rw [str_lt, lex_lt_iff] at h1 h2 ⊢
  exact trans_of (List.Lex charLT) h1 h2

theorem str_lt_irrefl (a : String) : str_lt a a = false := by
  rw [str_lt, lex_not_lt_iff]
  exact irrefl_of (List.Lex charLT) a.data

theorem str_ge_trans {a b c : String} (h1 : str_lt a b = false) (h2 : str_lt b c = false) :
    str_lt a c = false := by
  rw [str_lt, lex_not_lt_iff] at h1 h2 ⊢
  intro hac
  rcases trichotomous_of (List.Lex charLT) a.data b.data with h | h | h
  · exact h1 h
  · exact h2 (h ▸ hac)
  · exact h2 (trans_of (List.Lex charLT) h hac)

/-!
## Claim C1: effective version selection
The selection rule itself is pure lexicographic string comparison, but on
local `"10.0"` / remote `"9.0"` the code picks the REMOTE `"9.0"`:
`"9.0" > "10.0"` holds lexicographically (`'1' < '9'`), so the remote IS
strictly greater and `gh_ver > *local` is true.  The claim's assertion that
local `"10.0"` is chosen is therefore false on the code.
-/

/-- Claim C1 (counterexample): with a greatest local version `"10.0"` and a
remote version `"9.0"`, the resolution of `BinaryManager::get_version_dir`
selects the remote `"9.0"`, not the local `"10.0"` as the claim asserts. -/
theorem select_version_C1_counterexample :
    select_version (some "9.0") (some "10.0") "vscode-csharp" = .ok "9.0" ∧
    select_version (some "9.0") (some "10.0") "vscode-csharp" ≠ .ok "10.0" := by
  refine ⟨rfl, fun h => ?_⟩
  have h' : ("9.0" : String) = "10.0" := Except.ok.inj h
  exact absurd (congrArg String.data h') (by decide)

/-- Claim C1 (amended): effective version selection is pure lexicographic
string comparison: when a remote version was obtained, the remote version is
chosen if and only if no local version exists or the remote version string
is lexicographically greater than the greatest local version string;
otherwise the local version is chosen.  In particular, for local `"10.0"`
and remote `"9.0"`, the remote `"9.0"` is chosen, because `"9.0"` is
lexicographically greater than `"10.0"` (`'1' < '9'`). -/
theorem select_version_C1_amended (gh_ver pfx : String) (loc? : Option String) :
    select_version (some gh_ver) loc? pfx =
      .ok (match loc? with
           | none => gh_ver
           | some loc => if str_lt loc gh_ver then gh_ver else loc) ∧
    select_version (some "9.0") (some "10.0") pfx = .ok "9.0" := by
  refine ⟨?_, rfl⟩
  cases loc? with
  | none => rfl
  | some loc =>
    by_cases h : str_lt loc gh_ver
    · simp [select_version, h]
    · simp [select_version, h]

/-!
## Claim C10: DAP request kind dispatch
-/

/-- Claim C10: for every adapter name other than `"coreclr"`,
`dap_request_kind` errors; for `"coreclr"`, it returns `Launch` exactly when
the configuration's `"request"` field is the string `"launch"`, `Attach`
exactly when it is the string `"attach"`, and a descriptive error when the
field holds any other string or is absent — it never silently defaults. -/
theorem dap_request_kind_C10 :
    (∀ (name : String) (cfg : List (String × JsonVal)), name ≠ "coreclr" →
      dap_request_kind name cfg = .error ("Unknown adapter: " ++ name)) ∧
    (∀ cfg : List (String × JsonVal),
      (dap_request_kind "coreclr" cfg = .ok .launch ↔
        (json_get cfg "request").bind JsonVal.as_str = some "launch") ∧
      (dap_request_kind "coreclr" cfg = .ok .attach ↔
        (json_get cfg "request").bind JsonVal.as_str = some "attach") ∧
      (∀ r, (json_get cfg "request").bind JsonVal.as_str = some r →
        r ≠ "launch" → r ≠ "attach" →
        dap_request_kind "coreclr" cfg =
          .error ("Invalid 'request' value: '" ++ r ++ "'. Expected 'launch' or 'attach'")) ∧
      ((json_get cfg "request").bind JsonVal.as_str = none →
        dap_request_kind "coreclr" cfg =
          .error "Debug configuration missing required 'request' field. Must be 'launch' or 'attach'")) := by
  constructor
  · intro name cfg h
    simp [dap_request_kind, h]
  · intro cfg
    refine ⟨?_, ?_, ?_, ?_⟩
    · unfold dap_request_kind
      cases ho : (json_get cfg "request").bind JsonVal.as_str with
      | none => simp
      | some r =>
        by_cases h1 : r = "launch"
        · subst h1; simp
        · by_cases h2 : r = "attach" <;> simp [h1, h2]
    · unfold dap_request_kind
      cases ho : (json_get cfg "request").bind JsonVal.as_str with
      | none => simp
      | some r =>
        by_cases h1 : r = "launch"
        · subst h1; simp
        · by_cases h2 : r = "attach" <;> simp [h1, h2]
    · intro r hr h1 h2
      simp [dap_request_kind, hr, h1, h2]
    · intro hr
      simp [dap_request_kind, hr]

/-- Witness for C10: concrete evaluations discharging the hypotheses. -/
theorem dap_request_kind_C10_witness :
    dap_request_kind "lldb" [] = .error ("Unknown adapter: " ++ "lldb") ∧
    dap_request_kind "coreclr" [("request", JsonVal.str "attach")] = .ok .attach :=
  ⟨dap_request_kind_C10.1 "lldb" [] (by decide),
   (dap_request_kind_C10.2 [("request", JsonVal.str "attach")]).2.1.mpr rfl⟩

/-!
## Fold lemmas for the local-version scan
-/

theorem max_step_ne_none (acc : Option String) (v : String) : max_step acc v ≠ none := by
  cases acc with
  | none => simp [max_step]
  | some l =>
    unfold max_step
    split <;> simp

theorem scan_foldl_eq (pfx : String) :
    ∀ (entries : List DirEntry) (acc : Option String),
      List.foldl (scan_step pfx) acc entries =
        List.foldl max_step acc (scan_candidates pfx entries) := by
  intro entries
  induction entries with
  | nil => intro acc; rfl
  | cons e t ih =>
    intro acc
    by_cases h : (starts_with e.name pfx && e.is_dir) = true
    · simp [scan_candidates, List.filter_cons, h, scan_step, ih]
    · simp [scan_candidates, List.filter_cons, h, scan_step, ih]

theorem max_fold_none : ∀ (l : List String) (acc : Option String),
    List.foldl max_step acc l = none ↔ acc = none ∧ l = [] := by
  intro l
  induction l with
  | nil => intro acc; simp
  | cons v t ih =>
    intro acc
    simp only [List.foldl_cons]
    rw [ih]
    simp [max_step_ne_none acc v]

theorem max_fold_mem : ∀ (l : List String) (acc : Option String) (v : String),
    List.foldl max_step acc l = some v → v ∈ l ∨ acc = some v := by
  intro l
  induction l with
  | nil => intro acc v h; exact Or.inr h
  | cons w t ih =>
    intro acc v h
    simp only [List.foldl_cons] at h
    rcases ih (max_step acc w) v h with hm | he
    · exact Or.inl (List.mem_cons_of_mem _ hm)
    · unfold max_step at he
      split at he
      · cases Option.some.inj he
        exact Or.inl (List.mem_cons_self _ _)
      · exact Or.inr he

theorem max_fold_ge : ∀ (l : List String) (acc : Option String) (v : String),
    List.foldl max_step acc l = some v →
    (∀ w ∈ l, str_lt v w = false) ∧ (∀ a, acc = some a → str_lt v a = false) := by
  intro l
  induction l with
  | nil =>
    intro acc v h
    refine ⟨by simp, ?_⟩
    intro a ha
    rw [ha] at h
    cases Option.some.inj h
    exact str_lt_irrefl _
  | cons w t ih =>
    intro acc v h
    simp only [List.foldl_cons] at h
    have IH := ih (max_step acc w) v h
    cases acc with
    | none =>
      have hmw : max_step none w = some w := by simp [max_step]
      have hvw : str_lt v w = false := IH.2 w hmw
      refine ⟨?_, ?_⟩
      · intro x hx
        rcases List.mem_cons.mp hx with hxw | hxt
        · rw [hxw]; exact hvw
        · exact IH.1 x hxt
      · intro a ha
        exact Option.noConfusion ha
    | some l0 =>
      by_cases hc : str_lt l0 w = true
      · have hmw : max_step (some l0) w = some w := by simp [max_step, hc]
        have hvw : str_lt v w = false := IH.2 w hmw
        refine ⟨?_, ?_⟩
        · intro x hx
          rcases List.mem_cons.mp hx with hxw | hxt
          · rw [hxw]; exact hvw
          · exact IH.1 x hxt
        · intro a ha
          cases Option.some.inj ha
          by_contra hva
          rw [Bool.not_eq_false] at hva
          have hvwt : str_lt v w = true := str_lt_trans hva hc
          rw [hvwt] at hvw
          exact Bool.noConfusion hvw
      · have hl0w : str_lt l0 w = false := by rwa [Bool.not_eq_true] at hc
        have hmw : max_step (some l0) w = some l0 := by simp [max_step, hl0w]
        rw [hmw] at IH
        have hvl0 : str_lt v l0 = false := IH.2 l0 rfl
        have hvw : str_lt v w = false := str_ge_trans hvl0 hl0w
        refine ⟨?_, ?_⟩
        · intro x hx
          rcases List.mem_cons.mp hx with hxw | hxt
          · rw [hxw]; exact hvw
          · exact IH.1 x hxt
        · intro a ha
          cases Option.some.inj ha
          exact hvl0

/-!
## Claim C3: the local-version scan
The claim requires the scan to collect only entries named
`{name_prefix}-…` (prefix followed by a hyphen).  The code of
`BinaryManager::get_version_dir` checks `name.starts_with(&config.prefix)`
— the bare prefix, no hyphen — so an entry named exactly the prefix, or a
different tool sharing the prefix as a proper substring, IS collected.
-/

/-- Claim C3 (counterexample): with prefix `"vscode-csharp"`, a directory
entry named exactly `"vscode-csharp"` (bare prefix, no hyphen) IS collected
by the `BinaryManager` scan (the claim asserts it is not), with candidate
version `"vscode-csharp"` (the `{prefix}-` trim does not apply); likewise a
different tool `"netcoredbg2-1.0"` is collected under prefix
`"netcoredbg"`. -/
theorem scan_C3_counterexample :
    scan_local_versions "vscode-csharp" [⟨"vscode-csharp", true⟩] = some "vscode-csharp" ∧
    scan_local_versions "vscode-csharp" [⟨"vscode-csharp", true⟩] ≠ none ∧
    scan_local_versions "netcoredbg" [⟨"netcoredbg2-1.0", true⟩] = some "netcoredbg2-1.0" := by
  refine ⟨rfl, ?_, rfl⟩
  intro h
  exact Option.noConfusion h

/-- Claim C3 (amended): the `BinaryManager` scan collects exactly the
working-directory entries that are directories and whose name starts with
the bare `{name_prefix}` (a following hyphen is NOT required); the
candidate version is the name with every leading occurrence of
`{name_prefix}-` removed, and the lexicographically greatest candidate
becomes `latest_local`.  In the `CsharpExtension::get_vscode_version_dir`
variant the prefix literal itself ends with a hyphen, so there a bare
`"vscode-csharp"` entry is not collected. -/
theorem scan_C3_amended (pfx : String) (entries : List DirEntry) :
    (scan_local_versions pfx entries = none ↔ scan_candidates pfx entries = []) ∧
    (∀ v, scan_local_versions pfx entries = some v →
      v ∈ scan_candidates pfx entries ∧
      ∀ w ∈ scan_candidates pfx entries, str_lt v w = false) ∧
    scan_local_versions_vscode [⟨"vscode-csharp", true⟩] = none := by
  refine ⟨?_, ?_, rfl⟩
  · rw [scan_local_versions, scan_foldl_eq, max_fold_none]
    simp
  · intro v h
    rw [scan_local_versions, scan_foldl_eq] at h
    refine ⟨?_, ?_⟩
    · rcases max_fold_mem _ _ _ h with hm | he
      · exact hm
      · exact Option.noConfusion he
    · intro w hw
      exact (max_fold_ge _ _ _ h).1 w hw

/-- Witness for C3 (amended): a concrete two-entry listing where the scan
returns `"2.0"`, which is a candidate and not below the other candidate. -/
theorem scan_C3_amended_witness :
    "2.0" ∈ scan_candidates "vscode-csharp"
      [⟨"vscode-csharp-1.0", true⟩, ⟨"vscode-csharp-2.0", true⟩] ∧
    str_lt "2.0" "1.0" = false := by
  have h := (scan_C3_amended "vscode-csharp"
    [⟨"vscode-csharp-1.0", true⟩, ⟨"vscode-csharp-2.0", true⟩]).2.1 "2.0" rfl
  exact ⟨h.1, h.2 "1.0" (by decide)⟩

/-!
## Lemmas about the filesystem primitives
-/

theorem add_dir_subset {fs : Fs} {q : FsPath × Bool} (h : q ∈ fs) (p : FsPath) :
    q ∈ add_dir fs p := by
  unfold add_dir
  split
  · exact h
  · exact List.mem_append_left _ h

theorem add_dirs_subset {fs : Fs} {q : FsPath × Bool} (h : q ∈ fs) :
    ∀ l : List FsPath, q ∈ add_dirs fs l := by
  intro l
  induction l generalizing fs with
  | nil => exact h
  | cons p t ih => exact ih (add_dir_subset h p)

theorem add_dir_mem {fs : Fs} {p : FsPath} {q : FsPath × Bool} (h : q ∈ add_dir fs p) :
    q ∈ fs ∨ q = (p, true) := by
  unfold add_dir at h
  split at h
  · exact Or.inl h
  · rcases List.mem_append.mp h with h' | h'
    · exact Or.inl h'
    · exact Or.inr (List.mem_singleton.mp h')

theorem add_dirs_mem {q : FsPath × Bool} :
    ∀ (l : List FsPath) (fs : Fs), q ∈ add_dirs fs l →
      q ∈ fs ∨ (q.1 ∈ l ∧ q.2 = true) := by
  intro l
  induction l with
  | nil => intro fs h; exact Or.inl h
  | cons p t ih =>
    intro fs h
    rcases ih (add_dir fs p) h with h' | h'
    · rcases add_dir_mem h' with h'' | h''
      · exact Or.inl h''
      · right
        rw [h'']
        exact ⟨List.mem_cons_self _ _, rfl⟩
    · exact Or.inr ⟨List.mem_cons_of_mem _ h'.1, h'.2⟩

theorem mem_add_dirs_of_mem_list {p : FsPath} :
    ∀ (l : List FsPath) (fs : Fs), p ∈ l → (p, true) ∈ add_dirs fs l := by
  intro l
  induction l with
  | nil => intro fs h; exact absurd h (List.not_mem_nil _)
  | cons w t ih =>
    intro fs h
    rcases List.mem_cons.mp h with h' | h'
    · subst h'
      refine add_dirs_subset ?_ t
      unfold add_dir
      split
      · assumption
      · exact List.mem_append_right _ (List.mem_singleton.mpr rfl)
    · exact ih _ h'

theorem resolve_no_dots {q : List String} (hnd : no_dots q) :
    ∀ acc : FsPath, resolve_comps acc q = some (acc ++ q) := by
  induction q with
  | nil => intro acc; simp [resolve_comps]
  | cons c t ih =>
    intro acc
    have hc := hnd c (List.mem_cons_self _ _)
    have ht : no_dots t := fun d hd => hnd d (List.mem_cons_of_mem _ hd)
    unfold resolve_comps
    rw [if_neg (fun h => hc (Or.elim h Or.inl (fun h' => Or.inr (Or.inl h')))),
        if_neg (fun h => hc (Or.inr (Or.inr h)))]
    rw [ih ht (acc ++ [c])]
    simp

theorem no_dots_take {p : List String} (hnd : no_dots p) (n : Nat) :
    no_dots (p.take n) :=
  fun c hc => hnd c (List.take_subset n p hc)

theorem mkdir_targets_no_dots {p : List String} (hnd : no_dots p) :
    ∀ t ∈ mkdir_targets p, t <+: p := by
  intro t ht
  rcases List.mem_filterMap.mp ht with ⟨i, _, hres⟩
  rw [resolve_no_dots (no_dots_take hnd i) []] at hres
  cases hres
  simp only [List.nil_append]
  exact List.take_prefix _ _

theorem mem_mkdir_targets_self {p : List String} (hnd : no_dots p) :
    p ∈ mkdir_targets p := by
  unfold mkdir_targets
  apply List.mem_filterMap.mpr
  refine ⟨p.length, ?_, ?_⟩
  · exact List.mem_range.mpr (by omega)
  · rw [List.take_length, resolve_no_dots hnd []]
    simp

theorem remove_dir_all_mem {fs : Fs} {dest : List String} (hnd : no_dots dest)
    {q : FsPath × Bool} (h : q ∈ remove_dir_all fs dest) : q ∈ fs ∧ ¬ dest <+: q.1 := by
  unfold remove_dir_all at h
  rw [resolve_no_dots hnd []] at h
  simp only [List.nil_append] at h
  have := List.mem_filter.mp h
  refine ⟨this.1, ?_⟩
  simpa using this.2

/-- After `remove_dir_all` + `create_dir_all` on a clean destination: the
destination directory exists and its subtree is empty. -/
theorem cleaned_dest_state (fs : Fs) (dest : List String) (hnd : no_dots dest) :
    (dest, true) ∈ add_dirs (remove_dir_all fs dest) (mkdir_targets dest) ∧
    (∀ (p : FsPath) (b : Bool), dest <+: p → p ≠ dest →
      (p, b) ∉ add_dirs (remove_dir_all fs dest) (mkdir_targets dest)) := by
  constructor
  · exact mem_add_dirs_of_mem_list _ _ (mem_mkdir_targets_self hnd)
  · intro p b hpre hne h
    rcases add_dirs_mem _ _ h with h' | h'
    · exact (remove_dir_all_mem hnd h').2 hpre
    · have hpd : p <+: dest := mkdir_targets_no_dots hnd p h'.1
      exact hne (hpd.eq_of_length (Nat.le_antisymm hpd.length_le hpre.length_le))

/-!
## Claim C4: retry bound
-/

theorem retry_loop_all_fail (msgs : Nat → String) (fsOs : Nat → FsOracle)
    (dest : List String) (max : Nat) :
    ∀ (fuel attempt : Nat) (fs : Fs), attempt + fuel = max → 0 < fuel →
      retry_loop (fun k => .error (msgs k)) fsOs dest max fuel attempt fs =
        (fs, .error (msgs max), fuel) := by
  intro fuel
  induction fuel with
  | zero => intro attempt fs _ h; omega
  | succ f ih =>
    intro attempt fs hsum _
    simp only [retry_loop]
    by_cases hlt : attempt + 1 < max
    · rw [if_pos hlt]
      have hf : 0 < f := by omega
      rw [ih (attempt + 1) fs (by omega) hf]
    · rw [if_neg hlt]
      have h1 : attempt + 1 = max := by omega
      have h2 : f = 0 := by omega
      rw [h1, h2]

/-- Claim C4: the retry loop performs at most `max_retries` download
attempts: if the download fails on every attempt, `download_with_retry`
returns the last download error verbatim after exactly `max_retries`
download attempts; if the download fails on the first two attempts and
download+extract succeeds on the third, `download_with_retry` with
`max_retries = 3` returns success (after exactly 3 download attempts). -/
theorem download_C4 :
    (∀ max : Nat, 0 < max → ∀ (msgs : Nat → String) (fsOs : Nat → FsOracle)
      (dest : List String) (fs : Fs),
      download_with_retry (fun k => .error (msgs k)) fsOs dest max fs =
        (fs, .error (msgs max), max)) ∧
    (∀ (dl : Nat → Except String (Option (List String))) (fsOs : Nat → FsOracle)
      (dest : List String) (fs fs' : Fs) (zip : Option (List String)) (m1 m2 : String),
      dl 1 = .error m1 → dl 2 = .error m2 → dl 3 = .ok zip →
      extract_zip (fsOs 3) zip dest fs = (fs', none) →
      download_with_retry dl fsOs dest 3 fs = (fs', .ok (), 3)) := by
  constructor
  · intro max hmax msgs fsOs dest fs
    exact retry_loop_all_fail msgs fsOs dest max max 0 fs (by omega) hmax
  · intro dl fsOs dest fs fs' zip m1 m2 h1 h2 h3 hex
    unfold download_with_retry
    simp only [retry_loop, Nat.zero_add, h1, h2, h3, hex]
    norm_num

/-- Witness for C4: a download that always fails with `"HTTP fetch failed"`
surfaces that error after exactly 3 attempts; a download that fails twice
and then delivers an empty archive succeeds on the third attempt. -/
theorem download_C4_witness :
    download_with_retry (fun _ => .error "HTTP fetch failed: 502")
        (fun _ => ⟨fun _ => none, fun _ => none, fun _ => none⟩) ["d"] 3 [([], true)] =
      ([([], true)], .error "HTTP fetch failed: 502", 3) ∧
    download_with_retry
        (fun k => if k < 3 then .error "HTTP fetch failed: 502" else .ok (some []))
        (fun _ => ⟨fun _ => none, fun _ => none, fun _ => none⟩) ["d"] 3 [([], true)] =
      ([([], true), (["d"], true)], .ok (), 3) := by
  constructor
  · exact download_C4.1 3 (by decide) (fun _ => "HTTP fetch failed: 502") _ ["d"] [([], true)]
  · exact download_C4.2
      (fun k => if k < 3 then .error "HTTP fetch failed: 502" else .ok (some []))
      (fun _ => ⟨fun _ => none, fun _ => none, fun _ => none⟩) ["d"]
      [([], true)] [([], true), (["d"], true)] (some [])
      "HTTP fetch failed: 502" "HTTP fetch failed: 502" rfl rfl rfl rfl

/-!
## Claim C5: extraction-failure classification
-/

/-- Claim C5: an extraction failure inside the retry loop is retried exactly
when its message indicates truncation (`"unexpected end of file"`), a
generic `"extraction"`/`"download"`/`"failed"` condition, or an
`"incomplete write"`, and attempts remain; in that case the destination is
deleted and recreated empty before the next attempt (the recreation's own
failure propagates); otherwise the extraction error is surfaced
immediately as the result, with no further attempt. -/
theorem retry_C5 :
    (∀ e : String, is_retryable e =
      (contains_sub e "unexpected end of file" || contains_sub e "extraction" ||
       contains_sub e "download" || contains_sub e "incomplete write" ||
       contains_sub e "failed")) ∧
    (∀ (dl : Nat → Except String (Option (List String))) (fsOs : Nat → FsOracle)
      (dest : List String) (max fuel attempt : Nat) (fs fs' : Fs)
      (zip : Option (List String)) (e : String),
      dl (attempt + 1) = .ok zip →
      extract_zip (fsOs (attempt + 1)) zip dest fs = (fs', some e) →
      ¬ (is_retryable e = true ∧ attempt + 1 < max) →
      retry_loop dl fsOs dest max (fuel + 1) attempt fs = (fs', .error e, 1)) ∧
    (∀ (dl : Nat → Except String (Option (List String))) (fsOs : Nat → FsOracle)
      (dest : List String) (max fuel attempt : Nat) (fs fs' : Fs)
      (zip : Option (List String)) (e : String),
      dl (attempt + 1) = .ok zip →
      extract_zip (fsOs (attempt + 1)) zip dest fs = (fs', some e) →
      is_retryable e = true → attempt + 1 < max →
      (fsOs (attempt + 1)).create_dir_err dest = none →
      no_dots dest →
      (retry_loop dl fsOs dest max (fuel + 1) attempt fs =
        (match retry_loop dl fsOs dest max fuel (attempt + 1)
            (add_dirs (remove_dir_all fs' dest) (mkdir_targets dest)) with
         | (fs3, r, n) => (fs3, r, n + 1))) ∧
      (dest, true) ∈ add_dirs (remove_dir_all fs' dest) (mkdir_targets dest) ∧
      (∀ (p : FsPath) (b : Bool), dest <+: p → p ≠ dest →
        (p, b) ∉ add_dirs (remove_dir_all fs' dest) (mkdir_targets dest))) := by
  refine ⟨fun e => rfl, ?_, ?_⟩
  · intro dl fsOs dest max fuel attempt fs fs' zip e hdl hex hnot
    simp only [retry_loop, hdl, hex]
    rw [if_neg hnot]
  · intro dl fsOs dest max fuel attempt fs fs' zip e hdl hex hr hlt hcd hnd
    refine ⟨?_, (cleaned_dest_state fs' dest hnd).1, (cleaned_dest_state fs' dest hnd).2⟩
    simp only [retry_loop, hdl, hex]
    rw [if_pos ⟨hr, hlt⟩]
    simp only [create_dir_all, hcd]

/-- Witness for C5: a corrupt archive on the only allowed attempt surfaces
`"failed to open zip archive"` (retryable by message, but attempts are
exhausted); with attempts remaining the destination passed to the retried
attempt contains the destination directory. -/
theorem retry_C5_witness :
    retry_loop (fun _ => .ok none)
        (fun _ => ⟨fun _ => none, fun _ => none, fun _ => none⟩) ["d"] 1 1 0
        [([], true), (["d"], true)] =
      ([([], true), (["d"], true)],
       .error "failed to open zip archive: invalid Zip archive", 1) ∧
    (["d"], true) ∈ add_dirs (remove_dir_all [([], true), (["d"], true)] ["d"])
      (mkdir_targets ["d"]) := by
  constructor
  · exact retry_C5.2.1 (fun _ => .ok none)
      (fun _ => ⟨fun _ => none, fun _ => none, fun _ => none⟩) ["d"] 1 0 0
      [([], true), (["d"], true)] [([], true), (["d"], true)] none
      "failed to open zip archive: invalid Zip archive" rfl rfl (by decide)
  · exact (retry_C5.2.2 (fun _ => .ok none)
      (fun _ => ⟨fun _ => none, fun _ => none, fun _ => none⟩) ["d"] 3 1 0
      [([], true), (["d"], true)] [([], true), (["d"], true)] none
      "failed to open zip archive: invalid Zip archive" rfl rfl (by decide) (by decide)
      rfl (by decide)).2.1

/-!
## Claim C2: destination state after a failed run
The spec promises that a failed `download_with_retry` leaves the
destination absent or empty.  The code cleans the destination only BEFORE a
retried attempt; when the final attempt's extraction fails midway, the
error is returned with the partially extracted content still in place.
-/

/-- Claim C2 (counterexample): downloads always succeed, extraction of the
two-entry archive `["a", "b"]` writes `d/a` and then fails on `d/b`
(permission denied) on every attempt.  After 3 attempts,
`download_with_retry` returns the extraction error — and the destination
`d` still contains the partially extracted file `d/a`: the destination is
neither absent nor empty at the error return. -/
theorem download_C2_counterexample :
    download_with_retry (fun _ => .ok (some ["a", "b"]))
        (fun _ => ⟨fun _ => none,
          fun p => if p = ["d", "b"] then some "Permission denied (os error 13)" else none,
          fun _ => none⟩)
        ["d"] 3 [([], true), (["d"], true)] =
      ([([], true), (["d"], true), (["d", "a"], false)],
       .error "failed to create file b: Permission denied (os error 13)", 3) ∧
    (["d"] <+: ["d", "a"]) ∧ ["d", "a"] ≠ ["d"] := by
  exact ⟨rfl, by decide, by decide⟩

/-- Claim C2 (amended): the destination is deleted and recreated empty only
BEFORE each retried attempt — the state a retried attempt starts from has
the destination directory present with an empty subtree — but an error
return does not guarantee an absent/empty destination: when the final (or a
non-retryable) extraction failure is surfaced, the filesystem is returned
exactly as that extraction attempt left it, partial content included. -/
theorem download_C2_amended :
    (∀ (fs : Fs) (dest : List String), no_dots dest →
      (dest, true) ∈ add_dirs (remove_dir_all fs dest) (mkdir_targets dest) ∧
      ∀ (p : FsPath) (b : Bool), dest <+: p → p ≠ dest →
        (p, b) ∉ add_dirs (remove_dir_all fs dest) (mkdir_targets dest)) ∧
    (∀ (dl : Nat → Except String (Option (List String))) (fsOs : Nat → FsOracle)
      (dest : List String) (max fuel attempt : Nat) (fs fs' : Fs)
      (zip : Option (List String)) (e : String),
      dl (attempt + 1) = .ok zip →
      extract_zip (fsOs (attempt + 1)) zip dest fs = (fs', some e) →
      ¬ (is_retryable e = true ∧ attempt + 1 < max) →
      retry_loop dl fsOs dest max (fuel + 1) attempt fs = (fs', .error e, 1)) := by
  constructor
  · intro fs dest hnd
    exact ⟨(cleaned_dest_state fs dest hnd).1, (cleaned_dest_state fs dest hnd).2⟩
  · intro dl fsOs dest max fuel attempt fs fs' zip e hdl hex hnot
    simp only [retry_loop, hdl, hex]
    rw [if_neg hnot]

/-- Witness for C2 (amended): concrete instances of both conjuncts. -/
theorem download_C2_amended_witness :
    (["d"], true) ∈ add_dirs (remove_dir_all [([], true), (["d"], true), (["d", "x"], false)]
      ["d"]) (mkdir_targets ["d"]) ∧
    retry_loop (fun _ => .ok none)
        (fun _ => ⟨fun _ => none, fun _ => none, fun _ => none⟩) ["d"] 1 1 0 [([], true)] =
      ([([], true), (["d"], true)],
       .error "failed to open zip archive: invalid Zip archive", 1) := by
  constructor
  · exact (download_C2_amended.1 [([], true), (["d"], true), (["d", "x"], false)] ["d"]
      (by decide)).1
  · exact download_C2_amended.2 (fun _ => .ok none)
      (fun _ => ⟨fun _ => none, fun _ => none, fun _ => none⟩) ["d"] 1 0 0
      [([], true)] [([], true), (["d"], true)] none
      "failed to open zip archive: invalid Zip archive" rfl rfl (by decide)

/-!
## Claim C7: binary polling
-/

theorem poll_aux_count (exists_at : Nat → Bool) :
    ∀ (fuel pc : Nat) (has : Bool), (poll_aux exists_at fuel pc has).2 ≤ pc + fuel := by
  intro fuel
  induction fuel with
  | zero => intro pc has; simp [poll_aux]
  | succ f ih =>
    intro pc has
    unfold poll_aux
    split
    · simp
    · have := ih (pc + 1) (exists_at (pc + 1))
      omega

theorem poll_aux_finds (exists_at : Nat → Bool) :
    ∀ (fuel pc : Nat) (has : Bool), has = exists_at pc →
      (∃ j, pc ≤ j ∧ j ≤ pc + fuel ∧ exists_at j = true) →
      (poll_aux exists_at fuel pc has).1 = true := by
  intro fuel
  induction fuel with
  | zero =>
    intro pc has hhas hex
    rcases hex with ⟨j, hj1, hj2, hj3⟩
    have hj : j = pc := by omega
    subst hj
    simp [poll_aux, hhas, hj3]
  | succ f ih =>
    intro pc has hhas hex
    unfold poll_aux
    split
    · assumption
    · rcases hex with ⟨j, hj1, hj2, hj3⟩
      apply ih (pc + 1) (exists_at (pc + 1)) rfl
      refine ⟨j, ?_, by omega, hj3⟩
      rcases Nat.lt_or_ge pc j with h' | h'
      · omega
      · exfalso
        have hj : j = pc := by omega
        subst hj
        rw [← hhas] at hj3
        simp_all

theorem poll_aux_never (exists_at : Nat → Bool) (hnever : ∀ k, exists_at k = false) :
    ∀ (fuel pc : Nat), poll_aux exists_at fuel pc false = (false, pc + fuel) := by
  intro fuel
  induction fuel with
  | zero => intro pc; simp [poll_aux]
  | succ f ih =>
    intro pc
    unfold poll_aux
    rw [if_neg (by simp)]
    rw [hnever (pc + 1), ih (pc + 1)]
    congr 1
    omega

theorem infix_aux_append (pat : List Char) :
    ∀ a b : List Char, infix_aux pat b = true → infix_aux pat (a ++ b) = true := by
  intro a
  induction a with
  | nil => intro b h; simpa using h
  | cons c t ih =>
    intro b h
    simp only [List.cons_append, infix_aux, List.append_eq]
    rw [ih b h]
    simp

theorem contains_sub_append (a b pat : String) (h : contains_sub b pat = true) :
    contains_sub (a ++ b) pat = true := by
  unfold contains_sub at *
  have hd : (a ++ b).data = a.data ++ b.data := by
    cases a
    cases b
    rfl
  rw [hd]
  exact infix_aux_append _ _ _ h

/-- Claim C7: the post-extraction poll checks for the binary at most 50
times in its loop; if the binary never becomes visible, the version
directory is deleted recursively and resolution fails with an error whose
message contains `"binary not found after extraction"` (after exactly 50
polls); if the binary appears at any check within the budget, resolution
proceeds without error. -/
theorem binary_poll_C7 :
    (∀ exists_at : Nat → Bool, (poll_for_binary exists_at 50).2 ≤ 50) ∧
    (∀ (exists_at : Nat → Bool) (pfx : String) (version_dir : List String) (fs : Fs),
      (∀ k, exists_at k = false) →
      binary_poll_phase exists_at pfx version_dir fs =
        (remove_dir_all fs version_dir,
         .error ("failed to download " ++ pfx ++ ": binary not found after extraction")) ∧
      poll_for_binary exists_at 50 = (false, 50) ∧
      contains_sub ("failed to download " ++ pfx ++ ": binary not found after extraction")
        "binary not found after extraction" = true) ∧
    (∀ (exists_at : Nat → Bool) (pfx : String) (version_dir : List String) (fs : Fs)
      (k : Nat), k ≤ 50 → exists_at k = true →
      binary_poll_phase exists_at pfx version_dir fs = (fs, .ok ())) := by
  refine ⟨?_, ?_, ?_⟩
  · intro exists_at
    have := poll_aux_count exists_at 50 0 (exists_at 0)
    simpa [poll_for_binary] using this
  · intro exists_at pfx version_dir fs hnever
    have hpoll : poll_for_binary exists_at 50 = (false, 50) := by
      unfold poll_for_binary
      rw [hnever 0, poll_aux_never exists_at hnever 50 0]
    refine ⟨?_, hpoll, ?_⟩
    · unfold binary_poll_phase
      rw [hpoll]
    · exact contains_sub_append _ ": binary not found after extraction" _ (by decide)
  · intro exists_at pfx version_dir fs k hk hkt
    have h1 : (poll_for_binary exists_at 50).1 = true :=
      poll_aux_finds exists_at 50 0 (exists_at 0) rfl ⟨k, Nat.zero_le _, by omega, hkt⟩
    unfold binary_poll_phase
    rcases hp : poll_for_binary exists_at 50 with ⟨b, n⟩
    rw [hp] at h1
    simp only at h1
    subst h1
    rfl

/-- Witness for C7: a binary that never appears yields the deletion and the
"not found" error; a binary appearing at poll 3 yields success. -/
theorem binary_poll_C7_witness :
    binary_poll_phase (fun _ => false) "vscode-csharp" ["vscode-csharp-2.0"]
        [([], true), (["vscode-csharp-2.0"], true)] =
      ([([], true)],
       .error ("failed to download " ++ "vscode-csharp" ++
         ": binary not found after extraction")) ∧
    binary_poll_phase (fun k => Nat.ble 3 k) "vscode-csharp" ["vscode-csharp-2.0"]
        [([], true)] = ([([], true)], .ok ()) := by
  constructor
  · have h := (binary_poll_C7.2.1 (fun _ => false) "vscode-csharp" ["vscode-csharp-2.0"]
      [([], true), (["vscode-csharp-2.0"], true)] (fun _ => rfl)).1
    exact h
  · exact binary_poll_C7.2.2 (fun k => Nat.ble 3 k) "vscode-csharp" ["vscode-csharp-2.0"]
      [([], true)] 3 (by omega) (by decide)

/-!
## Path-resolution lemmas for extraction safety
-/

theorem depth_ok_take :
    ∀ (l : List String) (d : Nat), depth_ok l d ≠ none →
      ∀ n, depth_ok (l.take n) d ≠ none := by
  intro l
  induction l with
  | nil => intro d h n; simpa [List.take_nil] using h
  | cons c t ih =>
    intro d h n
    cases n with
    | zero => simp [depth_ok]
    | succ m =>
      rw [List.take_succ_cons]
      unfold depth_ok at h ⊢
      by_cases h1 : c = "" ∨ c = "."
      · rw [if_pos h1] at h ⊢
        exact ih d h m
      · rw [if_neg h1] at h ⊢
        by_cases h2 : c = ".."
        · rw [if_pos h2] at h ⊢
          cases d with
          | zero => exact absurd rfl h
          | succ d' => exact ih d' h m
        · rw [if_neg h2] at h ⊢
          exact ih (d + 1) h m

theorem depth_ok_filter :
    ∀ (l : List String) (d : Nat),
      depth_ok (l.filter (fun c => ¬ (c = "" ∨ c = "."))) d = depth_ok l d := by
  intro l
  induction l with
  | nil => intro d; rfl
  | cons c t ih =>
    intro d
    by_cases h1 : c = "" ∨ c = "."
    · rw [List.filter_cons_of_neg (by simp [h1])]
      rw [ih]
      conv_rhs => unfold depth_ok
      rw [if_pos h1]
    · rw [List.filter_cons_of_pos (by simp [h1])]
      conv_lhs => unfold depth_ok
      conv_rhs => unfold depth_ok
      rw [if_neg h1, if_neg h1]
      by_cases h2 : c = ".."
      · rw [if_pos h2, if_pos h2]
        cases d with
        | zero => rfl
        | succ d' => exact ih d'
      · rw [if_neg h2, if_neg h2]
        exact ih (d + 1)

theorem resolve_no_escape :
    ∀ (comps : List String) (base extra : FsPath) (d : Nat),
      depth_ok comps extra.length = some d →
      ∃ r : FsPath, resolve_comps (base ++ extra) comps = some (base ++ r) ∧ r.length = d := by
  intro comps
  induction comps with
  | nil =>
    intro base extra d h
    simp only [depth_ok, Option.some.injEq] at h
    exact ⟨extra, rfl, h⟩
  | cons c t ih =>
    intro base extra d h
    unfold depth_ok at h
    unfold resolve_comps
    by_cases h1 : c = "" ∨ c = "."
    · rw [if_pos h1] at h ⊢
      exact ih base extra d h
    · rw [if_neg h1] at h ⊢
      by_cases h2 : c = ".."
      · rw [if_pos h2] at h ⊢
        cases extra with
        | nil => simp at h
        | cons x xs =>
          rw [if_neg (by simp)]
          have hlen : ((x :: xs : List String).dropLast).length = xs.length := by
            rw [List.length_dropLast]
            simp
          rw [List.dropLast_append_of_ne_nil base (by simp)]
          apply ih base (x :: xs : List String).dropLast d
          rw [hlen]
          simpa using h
      · rw [if_neg h2] at h ⊢
        have := ih base (extra ++ [c]) d (by simpa using h)
        rw [← List.append_assoc] at this
        exact this

theorem resolve_skip_clean :
    ∀ (dest : List String), no_dots dest →
      ∀ (rest : List String) (acc : FsPath),
        resolve_comps acc (dest ++ rest) = resolve_comps (acc ++ dest) rest := by
  intro dest
  induction dest with
  | nil => intro _ rest acc; simp
  | cons c t ih =>
    intro hnd rest acc
    have hc := hnd c (List.mem_cons_self _ _)
    have ht : no_dots t := fun d hd => hnd d (List.mem_cons_of_mem _ hd)
    rw [List.cons_append]
    simp only [resolve_comps]
    rw [if_neg (fun h => hc (Or.elim h Or.inl (fun h' => Or.inr (Or.inl h')))),
        if_neg (fun h => hc (Or.inr (Or.inr h)))]
    rw [ih ht rest (acc ++ [c]), List.append_assoc]
    rfl

theorem mkdir_targets_within :
    ∀ (dest comps : List String), no_dots dest → depth_ok comps 0 ≠ none →
      ∀ t ∈ mkdir_targets (dest ++ comps), t <+: dest ∨ dest <+: t := by
  intro dest comps hnd hdo t ht
  rcases List.mem_filterMap.mp ht with ⟨i, _, hres⟩
  rw [List.take_append_eq_append_take] at hres
  by_cases hle : i ≤ dest.length
  · rw [Nat.sub_eq_zero_of_le hle, List.take_zero, List.append_nil] at hres
    rw [resolve_no_dots (no_dots_take hnd i) []] at hres
    cases hres
    left
    simp only [List.nil_append]
    exact List.take_prefix _ _
  · rw [List.take_of_length_le (by omega)] at hres
    rw [resolve_skip_clean dest hnd _ []] at hres
    simp only [List.nil_append] at hres
    have hd' : depth_ok (comps.take (i - dest.length)) 0 ≠ none :=
      depth_ok_take comps 0 hdo (i - dest.length)
    rcases hod : depth_ok (comps.take (i - dest.length)) 0 with _ | d
    · exact absurd hod hd'
    · rcases resolve_no_escape (comps.take (i - dest.length)) dest [] d
        (by simpa using hod) with ⟨r, hr, _⟩
      rw [List.append_nil] at hr
      rw [hr] at hres
      cases hres
      right
      exact List.prefix_append _ _

/-!
## Effect lemmas for the filesystem operations
-/

theorem create_dir_all_subset {fsO : FsOracle} {fs : Fs} {q : FsPath × Bool}
    (h : q ∈ fs) (p : List String) : q ∈ (create_dir_all fsO fs p).1 := by
  unfold create_dir_all
  split
  · exact h
  · exact add_dirs_subset h _

theorem create_dir_all_mem {fsO : FsOracle} {fs : Fs} {p : List String} {q : FsPath × Bool}
    (h : q ∈ (create_dir_all fsO fs p).1) :
    q ∈ fs ∨ (q.1 ∈ mkdir_targets p ∧ q.2 = true) := by
  unfold create_dir_all at h
  split at h
  · exact Or.inl h
  · exact add_dirs_mem _ _ h

theorem file_create_subset {fsO : FsOracle} {fs : Fs} {q : FsPath × Bool}
    (h : q ∈ fs) (p : List String) : q ∈ (file_create fsO fs p).1 := by
  unfold file_create
  split
  · exact h
  · split
    · exact h
    · split
      · exact h
      · split
        · exact h
        · exact List.mem_append_left _ h

theorem file_create_mem {fsO : FsOracle} {fs : Fs} {p : List String} {q : FsPath × Bool}
    (h : q ∈ (file_create fsO fs p).1) :
    q ∈ fs ∨ ∃ rp, resolve_comps [] p = some rp ∧ (rp, true) ∉ fs ∧ q = (rp, false) := by
  unfold file_create at h
  split at h
  · exact Or.inl h
  · split at h
    · exact Or.inl h
    · rename_i rp hrp
      split at h
      · exact Or.inl h
      · split at h
        · exact Or.inl h
        · rcases List.mem_append.mp h with h' | h'
          · exact Or.inl h'
          · rename_i hdir _
            exact Or.inr ⟨rp, hrp, hdir, List.mem_singleton.mp h'⟩

theorem file_and_copy_subset {fsO : FsOracle} {fs : Fs} {q : FsPath × Bool}
    (h : q ∈ fs) (outp : List String) (nm : String) :
    q ∈ (file_and_copy fsO fs outp nm).1 := by
  unfold file_and_copy
  split
  · rename_i fs' e heq
    have := @file_create_subset fsO _ _ h outp
    rw [heq] at this
    exact this
  · rename_i fs' heq
    have := @file_create_subset fsO _ _ h outp
    rw [heq] at this
    split <;> exact this

theorem file_and_copy_mem {fsO : FsOracle} {fs : Fs} {outp : List String} {nm : String}
    {q : FsPath × Bool} (h : q ∈ (file_and_copy fsO fs outp nm).1) :
    q ∈ fs ∨ ∃ rp, resolve_comps [] outp = some rp ∧ (rp, true) ∉ fs ∧ q = (rp, false) := by
  unfold file_and_copy at h
  split at h
  · rename_i fs' e heq
    have : q ∈ (file_create fsO fs outp).1 := by rw [heq]; exact h
    exact file_create_mem this
  · rename_i fs' heq
    have : q ∈ (file_create fsO fs outp).1 := by
      rw [heq]
      split at h <;> exact h
    exact file_create_mem this

theorem process_entry_subset {fsO : FsOracle} {dest : List String} {fs : Fs} {name : String}
    {q : FsPath × Bool} (h : q ∈ fs) : q ∈ (process_entry fsO dest fs name).1 := by
  unfold process_entry
  split
  · exact h
  · rename_i nm hen
    split
    · exact h
    · dsimp only
      split
      · split
        · rename_i fs' e heq
          have := @create_dir_all_subset fsO _ _ h (dest ++ path_comps nm)
          rw [heq] at this
          exact this
        · rename_i fs' heq
          have := @create_dir_all_subset fsO _ _ h (dest ++ path_comps nm)
          rw [heq] at this
          exact this
      · split
        · exact file_and_copy_subset h _ _
        · split
          · rename_i fs' e heq
            have := @create_dir_all_subset fsO _ _ h (dest ++ path_comps nm).dropLast
            rw [heq] at this
            exact this
          · rename_i fs' heq
            apply file_and_copy_subset _ _ _
            have := @create_dir_all_subset fsO _ _ h (dest ++ path_comps nm).dropLast
            rw [heq] at this
            exact this

/-!
## Extraction safety (claims C6 and C9)
-/

theorem enclosed_name_some {s nm : String} (h : enclosed_name s = some nm) :
    nm = s ∧ depth_ok (raw_comps s) 0 ≠ none := by
  unfold enclosed_name at h
  split at h
  · simp at h
  · split at h
    · simp at h
    · split at h
      · simp at h
      · rename_i d hd
        refine ⟨(Option.some.inj h).symm, ?_⟩
        rw [hd]
        simp

theorem add_dirs_of_all_mem :
    ∀ (l : List FsPath) (fs : Fs), (∀ p ∈ l, (p, true) ∈ fs) → add_dirs fs l = fs := by
  intro l
  induction l with
  | nil => intro fs _; rfl
  | cons p t ih =>
    intro fs h
    have h1 : add_dir fs p = fs := by
      unfold add_dir
      rw [if_pos (h p (List.mem_cons_self _ _))]
    show add_dirs (add_dir fs p) t = fs
    rw [h1]
    exact ih fs (fun q hq => h q (List.mem_cons_of_mem _ hq))

theorem no_dots_dropLast {p : List String} (hnd : no_dots p) : no_dots p.dropLast := by
  rw [List.dropLast_eq_take]
  exact no_dots_take hnd _

theorem dropLast_prefix' (p : List String) : p.dropLast <+: p := by
  rw [List.dropLast_eq_take]
  exact List.take_prefix _ _

theorem mkdir_targets_parent_within (dest comps : List String) (hnd : no_dots dest)
    (hdo : depth_ok comps 0 ≠ none) :
    ∀ t ∈ mkdir_targets (dest ++ comps).dropLast, t <+: dest ∨ dest <+: t := by
  rcases List.eq_nil_or_concat comps with hc | ⟨cs, c, hc⟩
  · subst hc
    rw [List.append_nil]
    intro t ht
    left
    have h1 : t <+: dest.dropLast := mkdir_targets_no_dots (no_dots_dropLast hnd) t ht
    exact h1.trans (dropLast_prefix' dest)
  · subst hc
    rw [List.concat_eq_append] at hdo ⊢
    rw [List.dropLast_append_of_ne_nil dest (by simp), List.dropLast_concat]
    intro t ht
    apply mkdir_targets_within dest cs hnd ?_ t ht
    have h1 := depth_ok_take (cs ++ [c]) 0 hdo cs.length
    rwa [List.take_left] at h1

theorem process_entry_safe (fsO : FsOracle) (dest : List String) (fs : Fs) (name : String)
    (hnd : no_dots dest) (hpre : ∀ q, q <+: dest → (q, true) ∈ fs) :
    ∀ (p : FsPath) (b : Bool), (p, b) ∈ (process_entry fsO dest fs name).1 →
      (p, b) ∈ fs ∨ (dest <+: p ∧ p ≠ dest) := by
  intro p b hmem
  unfold process_entry at hmem
  cases hen : enclosed_name name with
  | none => simp only [hen] at hmem; exact Or.inl hmem
  | some nm =>
    simp only [hen] at hmem
    have hfacts := enclosed_name_some hen
    have hdoc : depth_ok (path_comps nm) 0 ≠ none := by
      unfold path_comps
      rw [depth_ok_filter, hfacts.1]
      exact hfacts.2
    by_cases hne : nm = ""
    · rw [if_pos hne] at hmem; exact Or.inl hmem
    · rw [if_neg hne] at hmem
      have hwithin := mkdir_targets_within dest (path_comps nm) hnd hdoc
      by_cases hdir : entry_is_dir nm = true
      · rw [if_pos hdir] at hmem
        rcases hcd : create_dir_all fsO fs (dest ++ path_comps nm) with ⟨fs', err⟩
        rw [hcd] at hmem
        have hmem' : (p, b) ∈ fs' := by cases err <;> simpa using hmem
        rcases @create_dir_all_mem fsO _ (dest ++ path_comps nm) _
            (by rw [hcd]; exact hmem') with h' | ⟨ht, hb⟩
        · exact Or.inl h'
        · simp only at ht hb
          subst hb
          rcases hwithin p ht with hle | hge
          · exact Or.inl (hpre p hle)
          · by_cases hpd : p = dest
            · subst hpd; exact Or.inl (hpre p (List.prefix_refl _))
            · exact Or.inr ⟨hge, hpd⟩
      · rw [if_neg hdir] at hmem
        rcases houtp : dest ++ path_comps nm with _ | ⟨x, xs⟩
        · rw [houtp] at hmem
          rcases file_and_copy_mem hmem with h' | ⟨rp, hres, hnotdir, heq⟩
          · exact Or.inl h'
          · exfalso
            simp only [resolve_comps, Option.some.injEq] at hres
            subst hres
            exact hnotdir (hpre [] List.nil_prefix)
        · rw [houtp] at hmem
          rcases hcd : create_dir_all fsO fs (x :: xs).dropLast with ⟨fs', err⟩
          rw [hcd] at hmem
          have hparent : ∀ (p' : FsPath) (b' : Bool), (p', b') ∈ fs' →
              (p', b') ∈ fs ∨ (dest <+: p' ∧ p' ≠ dest) := by
            intro p' b' hm
            rcases @create_dir_all_mem fsO _ ((x :: xs).dropLast) _
                (by rw [hcd]; exact hm) with h' | ⟨ht, hb⟩
            · exact Or.inl h'
            · simp only at ht hb
              subst hb
              rw [← houtp] at ht
              rcases mkdir_targets_parent_within dest (path_comps nm) hnd hdoc p' ht
                  with hle | hge
              · exact Or.inl (hpre p' hle)
              · by_cases hpd : p' = dest
                · subst hpd; exact Or.inl (hpre p' (List.prefix_refl _))
                · exact Or.inr ⟨hge, hpd⟩
          cases err with
          | some e =>
            exact hparent p b (by simpa using hmem)
          | none =>
            have hfs'sub : ∀ q, q <+: dest → (q, true) ∈ fs' := by
              intro q hq
              have := @create_dir_all_subset fsO _ _ (hpre q hq) ((x :: xs).dropLast)
              rw [hcd] at this
              exact this
            rcases file_and_copy_mem hmem with h' | ⟨rp, hres, hnotdir, heq⟩
            · exact hparent p b h'
            · rw [← houtp] at hres
              rw [resolve_skip_clean dest hnd _ []] at hres
              simp only [List.nil_append] at hres
              rcases hod : depth_ok (path_comps nm) 0 with _ | d
              · exact absurd hod hdoc
              · rcases resolve_no_escape (path_comps nm) dest [] d (by simpa using hod)
                    with ⟨r, hr, _⟩
                rw [List.append_nil] at hr
                rw [hr] at hres
                have hrp : rp = dest ++ r := (Option.some.inj hres).symm
                subst hrp
                have hpb : p = dest ++ r ∧ b = false := by
                  have h1 := congrArg Prod.fst heq
                  have h2 := congrArg Prod.snd heq
                  exact ⟨h1, h2⟩
                rcases hpb with ⟨hp, hb⟩
                subst hp hb
                right
                refine ⟨List.prefix_append _ _, ?_⟩
                intro hcontra
                apply hnotdir
                rw [hcontra]
                exact hfs'sub dest (List.prefix_refl _)

theorem extract_entries_safe (fsO : FsOracle) (dest : List String) (hnd : no_dots dest) :
    ∀ (entries : List String) (fs : Fs),
      (∀ q, q <+: dest → (q, true) ∈ fs) →
      ∀ (p : FsPath) (b : Bool), (p, b) ∈ (extract_entries fsO dest entries fs).1 →
        (p, b) ∈ fs ∨ (dest <+: p ∧ p ≠ dest) := by
  intro entries
  induction entries with
  | nil => intro fs _ p b h; exact Or.inl h
  | cons e rest ih =>
    intro fs hpre p b h
    unfold extract_entries at h
    rcases hpe : process_entry fsO dest fs e with ⟨fs', err⟩
    rw [hpe] at h
    have hpre' : ∀ q, q <+: dest → (q, true) ∈ fs' := by
      intro q hq
      have := @process_entry_subset fsO dest _ e _ (hpre q hq)
      rw [hpe] at this
      exact this
    have step : ∀ (p' : FsPath) (b' : Bool), (p', b') ∈ fs' →
        (p', b') ∈ fs ∨ (dest <+: p' ∧ p' ≠ dest) := by
      intro p' b' hm
      exact process_entry_safe fsO dest fs e hnd hpre p' b' (by rw [hpe]; exact hm)
    cases err with
    | none =>
      rcases ih fs' hpre' p b h with h' | h'
      · exact step p b h'
      · exact Or.inr h'
    | some msg => exact step p b (by simpa using h)

theorem prefixes_of_singleton {x : String} {q : List String} (h : q <+: [x]) :
    q = [] ∨ q = [x] := by
  rcases h with ⟨t, ht⟩
  cases q with
  | nil => exact Or.inl rfl
  | cons a q' =>
    rw [List.cons_append] at ht
    injection ht with h1 h2
    subst h1
    cases q' with
    | nil => exact Or.inr rfl
    | cons a2 q'' => simp at h2

/-- Claim C6: extraction never creates a file or directory outside the
destination directory: with the destination chain present (the function
itself first runs `create_dir_all(destination)`), every filesystem entry
after `extract_zip` either already existed or lies strictly inside the
destination; an entry whose stored path cannot be safely resolved
(`enclosed_name` returns `None`, e.g. `"../../evil"`) is skipped and
extraction of the remaining entries continues rather than aborting. -/
theorem extract_zip_C6 :
    (∀ (fsO : FsOracle) (zip_data : Option (List String)) (dest : List String) (fs : Fs),
      no_dots dest →
      (∀ q, q <+: dest → (q, true) ∈ fs) →
      ∀ (p : FsPath) (b : Bool), (p, b) ∈ (extract_zip fsO zip_data dest fs).1 →
        (p, b) ∈ fs ∨ (dest <+: p ∧ p ≠ dest)) ∧
    (∀ (fsO : FsOracle) (dest : List String) (fs : Fs) (e : String) (rest : List String),
      enclosed_name e = none →
      extract_entries fsO dest (e :: rest) fs = extract_entries fsO dest rest fs) ∧
    enclosed_name "../../evil" = none := by
  refine ⟨?_, ?_, rfl⟩
  · intro fsO zip_data dest fs hnd hpre p b h
    unfold extract_zip at h
    rcases hcd : create_dir_all fsO fs dest with ⟨fs1, err⟩
    rw [hcd] at h
    have base : (p, b) ∈ fs1 → (p, b) ∈ fs := by
      intro hm
      rcases @create_dir_all_mem fsO _ dest _ (by rw [hcd]; exact hm)
          with h' | ⟨ht, hb⟩
      · exact h'
      · simp only at ht hb
        subst hb
        exact hpre p (mkdir_targets_no_dots hnd p ht)
    cases err with
    | some e => exact Or.inl (base (by simpa using h))
    | none =>
      cases zip_data with
      | none => exact Or.inl (base (by simpa using h))
      | some entries =>
        have hpre1 : ∀ q, q <+: dest → (q, true) ∈ fs1 := by
          intro q hq
          have := @create_dir_all_subset fsO _ _ (hpre q hq) dest
          rw [hcd] at this
          exact this
        rcases extract_entries_safe fsO dest hnd entries fs1 hpre1 p b h with h' | h'
        · exact Or.inl (base h')
        · exact Or.inr h'
  · intro fsO dest fs e rest hen
    have hpe : process_entry fsO dest fs e = (fs, none) := by
      unfold process_entry
      rw [hen]
    show (match process_entry fsO dest fs e with
          | (fs', none) => extract_entries fsO dest rest fs'
          | (fs', some err) => (fs', some err)) = extract_entries fsO dest rest fs
    rw [hpe]

/-- Witness for C6: extracting the archive `["../../evil", "ok.txt"]` into
`d`, the file created for `ok.txt` lies strictly inside `d`, and the
traversal entry is skipped with extraction continuing over the rest. -/
theorem extract_zip_C6_witness :
    (["d"] <+: ["d", "ok.txt"] ∧ ["d", "ok.txt"] ≠ ["d"]) ∧
    extract_entries ⟨fun _ => none, fun _ => none, fun _ => none⟩ ["d"]
        ["../../evil", "ok.txt"] [([], true), (["d"], true)] =
      extract_entries ⟨fun _ => none, fun _ => none, fun _ => none⟩ ["d"]
        ["ok.txt"] [([], true), (["d"], true)] := by
  constructor
  · have h := extract_zip_C6.1 ⟨fun _ => none, fun _ => none, fun _ => none⟩
      (some ["../../evil", "ok.txt"]) ["d"] [([], true), (["d"], true)] (by decide)
      (by
        intro q hq
        rcases prefixes_of_singleton hq with h | h <;> subst h <;> decide)
      ["d", "ok.txt"] false (by decide)
    rcases h with h | h
    · exact absurd h (by decide)
    · exact h
  · exact extract_zip_C6.2.1 ⟨fun _ => none, fun _ => none, fun _ => none⟩ ["d"]
      [([], true), (["d"], true)] "../../evil" ["ok.txt"] rfl

/-!
## Claim C9: an entry-less archive
-/

/-- Claim C9: for every syntactically valid zip archive with zero entries
and every destination where directory creation succeeds, `extract_zip`
returns success, the destination directory exists afterwards, and nothing
is created besides the destination's own ancestor chain — the destination
is left existing and empty (an entry-less archive is not a corruption
error for the extraction phase). -/
theorem extract_zip_C9 (fsO : FsOracle) (dest : List String) (fs : Fs)
    (hc : fsO.create_dir_err dest = none) (hnd : no_dots dest) :
    (extract_zip fsO (some []) dest fs).2 = none ∧
    (dest, true) ∈ (extract_zip fsO (some []) dest fs).1 ∧
    (∀ (p : FsPath) (b : Bool), (p, b) ∈ (extract_zip fsO (some []) dest fs).1 →
      (p, b) ∈ fs ∨ (p <+: dest ∧ b = true)) := by
  have hext : extract_zip fsO (some []) dest fs = (add_dirs fs (mkdir_targets dest), none) := by
    unfold extract_zip create_dir_all
    rw [hc]
    rfl
  rw [hext]
  refine ⟨rfl, ?_, ?_⟩
  · exact mem_add_dirs_of_mem_list _ _ (mem_mkdir_targets_self hnd)
  · intro p b h
    rcases add_dirs_mem _ _ h with h' | ⟨ht, hb⟩
    · exact Or.inl h'
    · exact Or.inr ⟨mkdir_targets_no_dots hnd p ht, hb⟩

/-- Witness for C9: the empty archive extracted into `d` over an empty
filesystem succeeds and creates the `d` chain. -/
theorem extract_zip_C9_witness :
    (extract_zip ⟨fun _ => none, fun _ => none, fun _ => none⟩ (some []) ["d"] []).2 = none ∧
    (["d"], true) ∈
      (extract_zip ⟨fun _ => none, fun _ => none, fun _ => none⟩ (some []) ["d"] []).1 := by
  have h := extract_zip_C9 ⟨fun _ => none, fun _ => none, fun _ => none⟩ ["d"] [] rfl (by decide)
  exact ⟨h.1, h.2.1⟩

/-!
## Claim C8: idempotence and cache behavior of the resolver
-/

theorem get_version_dir_uncached_cache (env : Env) (pfx p : String) (c : Option String)
    (eff : Effects) (h : get_version_dir_uncached env pfx = (.ok p, c, eff)) :
    c = some p := by
  unfold get_version_dir_uncached at h
  dsimp only at h
  rcases hsel : select_version (Option.map (fun v => trim_start_char v 'v') env.github)
      (scan_local_versions pfx env.entries) pfx with e | version
  · rw [hsel] at h
    simp at h
  · rw [hsel] at h
    dsimp only at h
    by_cases hv : (env.is_dir (pfx ++ "-" ++ version) &&
        env.is_file (env.binary_path (pfx ++ "-" ++ version))) = true
    · rw [if_pos hv] at h
      simp only [Prod.mk.injEq] at h
      obtain ⟨h1, h2, _⟩ := h
      cases Except.ok.inj h1
      exact h2.symm
    · rw [if_neg hv] at h
      rcases hps : env.platform_string with e | plat
      · rw [hps] at h
        simp at h
      · rw [hps] at h
        dsimp only at h
        rcases hdu : env.download_url version plat with e | u
        · rw [hdu] at h
          simp at h
        · rw [hdu] at h
          dsimp only at h
          rcases hdr : env.download_result with e | u'
          · rw [hdr] at h
            simp at h
          · rw [hdr] at h
            dsimp only at h
            rcases hpb : poll_for_binary env.binary_appears 50 with ⟨found, n⟩
            rw [hpb] at h
            cases found
            · simp at h
            · simp only [Prod.mk.injEq] at h
              obtain ⟨h1, h2, _⟩ := h
              cases Except.ok.inj h1
              exact h2.symm

/-- Claim C8: resolution is idempotent under an unchanged filesystem: every
successful `get_version_dir` stores the returned path in the cache; when
the cached path still exists as a directory, the call returns the identical
path with zero release-catalog queries, zero directory scans and zero
downloads (only the one cached-path existence check); and when the cached
path is no longer a directory, the stale entry is ignored and the call
behaves (result and effects) exactly like a call with no cache, restarting
from the local-scan state. -/
theorem get_version_dir_C8 :
    (∀ (env : Env) (cached : Option String) (pfx p : String) (c : Option String)
      (eff : Effects), get_version_dir env cached pfx = (.ok p, c, eff) → c = some p) ∧
    (∀ (env : Env) (p pfx : String), env.is_dir p = true →
      get_version_dir env (some p) pfx = (.ok p, some p, zero_effects)) ∧
    (∀ (env : Env) (d pfx : String), env.is_dir d = false →
      (get_version_dir env (some d) pfx).1 = (get_version_dir env none pfx).1 ∧
      (get_version_dir env (some d) pfx).2.2 = (get_version_dir env none pfx).2.2) := by
  refine ⟨?_, ?_, ?_⟩
  · intro env cached pfx p c eff h
    unfold get_version_dir at h
    cases cached with
    | none =>
      dsimp only at h
      rcases huc : get_version_dir_uncached env pfx with ⟨r, c', eff'⟩
      rw [huc] at h
      cases r with
      | ok q =>
        dsimp only at h
        simp only [Prod.mk.injEq] at h
        obtain ⟨h1, h2, _⟩ := h
        cases Except.ok.inj h1
        rw [← h2]
        exact get_version_dir_uncached_cache env pfx p c' eff' huc
      | error e => simp at h
    | some cached_dir =>
      dsimp only at h
      by_cases hdir : env.is_dir cached_dir = true
      · rw [if_pos hdir] at h
        simp only [Prod.mk.injEq] at h
        obtain ⟨h1, h2, _⟩ := h
        cases Except.ok.inj h1
        exact h2.symm
      · rw [if_neg hdir] at h
        rcases huc : get_version_dir_uncached env pfx with ⟨r, c', eff'⟩
        rw [huc] at h
        cases r with
        | ok q =>
          dsimp only at h
          simp only [Prod.mk.injEq] at h
          obtain ⟨h1, h2, _⟩ := h
          cases Except.ok.inj h1
          rw [← h2]
          exact get_version_dir_uncached_cache env pfx p c' eff' huc
        | error e => simp at h
  · intro env p pfx h
    simp [get_version_dir, h]
  · intro env d pfx h
    rcases huc : get_version_dir_uncached env pfx with ⟨r, c', eff'⟩
    cases r <;> simp [get_version_dir, h, huc]

/-- Witness for C8: a concrete environment where the cached path exists
(cache hit with zero effects), a stale cached path resolves like a call
with no cache, and a successful no-cache resolution stores the returned
path. -/
theorem get_version_dir_C8_witness :
    get_version_dir
        ⟨fun s => decide (s = "/abs/vscode-csharp-2.0"), fun _ => true, [], some "v2.0",
         .ok "linux-x64", fun _ _ => .ok "u", fun d => d ++ "/bin", .ok (), fun _ => true,
         fun s => "/abs/" ++ s⟩
        (some "/abs/vscode-csharp-2.0") "vscode-csharp" =
      (.ok "/abs/vscode-csharp-2.0", some "/abs/vscode-csharp-2.0", zero_effects) ∧
    (get_version_dir
        ⟨fun s => decide (s = "/abs/vscode-csharp-2.0"), fun _ => true, [], some "v2.0",
         .ok "linux-x64", fun _ _ => .ok "u", fun d => d ++ "/bin", .ok (), fun _ => true,
         fun s => "/abs/" ++ s⟩
        (some "stale-dir") "vscode-csharp").1 =
      (get_version_dir
        ⟨fun s => decide (s = "/abs/vscode-csharp-2.0"), fun _ => true, [], some "v2.0",
         .ok "linux-x64", fun _ _ => .ok "u", fun d => d ++ "/bin", .ok (), fun _ => true,
         fun s => "/abs/" ++ s⟩
        none "vscode-csharp").1 ∧
    (some ("/abs/" ++ ("vscode-csharp" ++ "-" ++ "2.0")) : Option String) =
      some ("/abs/" ++ ("vscode-csharp" ++ "-" ++ "2.0")) := by
  refine ⟨?_, ?_, ?_⟩
  · exact get_version_dir_C8.2.1
      ⟨fun s => decide (s = "/abs/vscode-csharp-2.0"), fun _ => true, [], some "v2.0",
       .ok "linux-x64", fun _ _ => .ok "u", fun d => d ++ "/bin", .ok (), fun _ => true,
       fun s => "/abs/" ++ s⟩
      "/abs/vscode-csharp-2.0" "vscode-csharp" (by decide)
  · exact (get_version_dir_C8.2.2
      ⟨fun s => decide (s = "/abs/vscode-csharp-2.0"), fun _ => true, [], some "v2.0",
       .ok "linux-x64", fun _ _ => .ok "u", fun d => d ++ "/bin", .ok (), fun _ => true,
       fun s => "/abs/" ++ s⟩
      "stale-dir" "vscode-csharp" (by decide)).1
  · exact get_version_dir_C8.1
      ⟨fun s => decide (s = "/abs/vscode-csharp-2.0"), fun _ => true, [], some "v2.0",
       .ok "linux-x64", fun _ _ => .ok "u", fun d => d ++ "/bin", .ok (), fun _ => true,
       fun s => "/abs/" ++ s⟩
      none "vscode-csharp" ("/abs/" ++ ("vscode-csharp" ++ "-" ++ "2.0"))
      (some ("/abs/" ++ ("vscode-csharp" ++ "-" ++ "2.0"))) ⟨1, 2, 1⟩ rfl
